import Mathlib

/-!
# Lessons Learned App — shallow embedding and verification

Shallow embedding of the section-label parser and the image pipeline of the
Aecon Lessons Learned generator (`translationapp.py`, `app.py`, `testapp.py`),
with theorems settling the specification claims about them.

Text is modelled as `List Char` (`Str`).  Python `str.strip()` is `trim`
(leading/trailing whitespace removal), `str.splitlines()` is `splitLines`
(split at the newline character; Python drops a final empty chunk after a
trailing newline and the parsers skip blank lines, so the two agree through
the parser), a Python `dict` is an insertion-ordered association list with
first-match lookup (`alookup`), in-place update (`setEntry`) and in-place
list append (`appendEntry`) — Python dict keys stay unique and keep their
original position on re-assignment, which is exactly what `setEntry` does.
-/

namespace LessonsApp

/-- Text modelled as a list of characters. -/
abbrev Str := List Char

/-- Conversion from a Lean string literal to the character-list model. -/
def ofString (s : String) : Str := s.data

/-- The ASCII apostrophe U+0027 (written by code point). -/
def apos : Char := Char.ofNat 39

/-- The typographic apostrophe U+2019 (written by code point). -/
def rapos : Char := Char.ofNat 8217

/-- The non-breaking hyphen U+2011 (written by code point). -/
def nbhyph : Char := Char.ofNat 8209

/-- Whitespace test, modelling both Python `str.strip` characters and the
regex class `\s` for the characters that occur in this data. -/
def isWs (c : Char) : Bool := c.isWhitespace

/-- Remove leading whitespace (the `\s*` of the heading pattern, and the
left half of Python `str.strip`). -/
def trimLeft (l : Str) : Str := l.dropWhile isWs

/-- Remove trailing whitespace (the right half of Python `str.strip`). -/
def trimRight (l : Str) : Str := (l.reverse.dropWhile isWs).reverse

/-- Python `str.strip()`: remove leading and trailing whitespace. -/
def trim (l : Str) : Str := trimRight (trimLeft l)

/-- Split a character list at every character satisfying `p`; chunks keep
their order and separators are dropped.  Always returns at least one chunk. -/
def splitBy (p : Char → Bool) : Str → List Str
  | [] => [[]]
  | c :: t =>
    if p c then [] :: splitBy p t
    else
      match splitBy p t with
      | h :: r => (c :: h) :: r
      | [] => [[c]]

/-- Python `str.splitlines()`, modelled as splitting at `'\n'`.  (Python
also drops an empty final chunk after a trailing newline; the parsers skip
blank lines, so keeping it is observationally equal.) -/
def splitLines (l : Str) : List Str := splitBy (fun c => c == '\n') l

/-- Python `str.split()` with no argument: split at whitespace runs and
drop empty chunks. -/
def wsWords (l : Str) : List Str := (splitBy isWs l).filter (fun w => !w.isEmpty)

/-- First-match lookup in an association list — Python `dict.get` (keys are
unique in every dict the code builds). -/
def alookup {β : Type} (m : List (Str × β)) (k : Str) : Option β :=
  match m with
  | [] => none
  | (k₁, v) :: t => if k₁ = k then some v else alookup t k

/-- Python `d[k] = v`: replace the value at `k` in place if present,
otherwise append the new entry at the end (dict insertion order). -/
def setEntry {β : Type} (m : List (Str × β)) (k : Str) (v : β) : List (Str × β) :=
  match m with
  | [] => [(k, v)]
  | (k₁, v₁) :: t => if k₁ = k then (k₁, v) :: t else (k₁, v₁) :: setEntry t k v

/-- Python `d[k].append(x)` on the first (unique) entry at `k`; no entry is
touched when `k` is absent — the parser invariant proved below shows the
absent case is unreachable where the code performs this access, so the
Python `KeyError` cannot fire. -/
def appendEntry (m : List (Str × List Str)) (k : Str) (x : Str) : List (Str × List Str) :=
  match m with
  | [] => []
  | (k₁, v) :: t => if k₁ = k then (k₁, v ++ [x]) :: t else (k₁, v) :: appendEntry t k x

/-- The parser's output mapping: canonical key to list of content lines. -/
abbrev Sections := List (Str × List Str)

/-- Characters of the line before its first colon — regex group
`([^:]+)` of `^([^:]+):\s*(.*)$` (nonemptiness is checked at the match). -/
def beforeColon (l : Str) : Str := l.takeWhile (fun c => c != ':')

/-- `re.match(r'^([^:]+):\s*(.*)$', line)`: `some (label, rest)` when the
line has a colon with at least one character before the first one; `label`
is the text before the first colon and `rest` the text after it with the
leading whitespace run (`\s*`) removed.  Lines here never contain `'\n'`,
so the `.`/`$` subtleties of the regex are vacuous. -/
def patMatch (l : Str) : Option (Str × Str) :=
  match l.dropWhile (fun c => c != ':') with
  | [] => none
  | _ :: afterFirstColon =>
    if beforeColon l = [] then none
    else some (beforeColon l, trimLeft afterFirstColon)

/-- `label_map` of `translationapp.py` (lines 127–154), byte-exact: keys are
heading surface forms, values the internal English canonical keys.  The
apostrophes and the U+2011 hyphen are spelled via the named characters
`apos`, `rapos`, `nbhyph` above. -/
def labelMap : List (Str × Str) :=
  [ (ofString "Title", ofString "Title"),
    (ofString "Aecon Business Sector", ofString "Aecon Business Sector"),
    (ofString "Project/Location", ofString "Project/Location"),
    (ofString "Date of Event", ofString "Date of Event"),
    (ofString "Event Type", ofString "Event Type"),
    (ofString "Event Summary Header", ofString "Event Summary Header"),
    (ofString "Event Summary", ofString "Event Summary"),
    (ofString "Contributing Factors", ofString "Contributing Factors"),
    (ofString "Lessons Learned", ofString "Lessons Learned"),
    (ofString "Titre", ofString "Title"),
    (ofString "Secteur d" ++ [apos] ++ ofString "activité d" ++ [apos] ++ ofString "Aecon",
      ofString "Aecon Business Sector"),
    (ofString "Secteur d" ++ [rapos] ++ ofString "activité d" ++ [rapos] ++ ofString "Aecon",
      ofString "Aecon Business Sector"),
    (ofString "Secteur d" ++ [apos] ++ ofString "activité Aecon",
      ofString "Aecon Business Sector"),
    (ofString "Projet/Emplacement", ofString "Project/Location"),
    (ofString "Projet/Lieu", ofString "Project/Location"),
    (ofString "Date de l" ++ [apos] ++ ofString "événement", ofString "Date of Event"),
    (ofString "Type d" ++ [apos] ++ ofString "événement", ofString "Event Type"),
    (ofString "En-tête du résumé de l" ++ [apos] ++ ofString "événement",
      ofString "Event Summary Header"),
    (ofString "En" ++ [nbhyph] ++ ofString "tête du résumé de l" ++ [rapos] ++ ofString "événement",
      ofString "Event Summary Header"),
    (ofString "Résumé de l" ++ [apos] ++ ofString "événement", ofString "Event Summary"),
    (ofString "Facteurs contributifs", ofString "Contributing Factors"),
    (ofString "Leçons apprises", ofString "Lessons Learned"),
    (ofString "Leçons tirées", ofString "Lessons Learned") ]

/-- Heading test of `translationapp.py`'s `parse_sections` on an already
stripped line: regex match, then `label_map.get(raw_label)` on the stripped
group 1; `some (key, rest)` carries the canonical key and the stripped
group 2 (`m.group(2).strip()`).  `if key:` in the code equals the `some`
test because every `label_map` value is a nonempty string. -/
def headKey (line : Str) : Option (Str × Str) :=
  match patMatch line with
  | none => none
  | some (g₁, g₂) =>
    match alookup labelMap (trim g₁) with
    | none => none
    | some key => some (key, trim g₂)

/-- Loop state of `parse_sections`: the mapping built so far and the
`current` open section (Python `None` or a key string). -/
structure PState where
  sections : Sections
  current : Option Str
deriving DecidableEq

/-- One iteration of `translationapp.py`'s `parse_sections` loop (lines
160–179): strip the line, skip it when blank, open a (fresh) section on a
recognized heading seeding it with the same-line rest when nonempty, and
otherwise append the stripped line to the open section.  `if current:` is
Python truthiness: `None` and the empty string are both falsy, hence the
emptiness test on `cur`. -/
def stepLine (st : PState) (raw : Str) : PState :=
  let line := trim raw
  if line = [] then st
  else
    match headKey line with
    | some (key, rest) =>
      ⟨setEntry st.sections key (if rest = [] then [] else [rest]), some key⟩
    | none =>
      match st.current with
      | some cur => if cur = [] then st else ⟨appendEntry st.sections cur line, st.current⟩
      | none => st

/-- `sections, current = {}, None` before the loop. -/
def initState : PState := ⟨[], none⟩

/-- Run the parsing loop over a list of lines from a given state. -/
def runLines (st : PState) (lines : List Str) : PState := lines.foldl stepLine st

/-- The mapping produced from a list of lines. -/
def parseLines (lines : List Str) : Sections := (runLines initState lines).sections

/-- `parse_sections` of `translationapp.py` (lines 123–181). -/
def parse_sections (out : Str) : Sections := parseLines (splitLines out)

/-- Python `line.endswith(':')`. -/
def endsColon (l : Str) : Bool := l.getLast? == some ':'

/-- One iteration of `testapp.py`'s `parse_sections` loop (lines 26–34): a
stripped nonblank line is a heading when it ends with a colon and has fewer
than six whitespace-separated words; the key is the line without its final
colon, stripped (`line[:-1].strip()`).  No alias table is consulted. -/
def testappStep (st : PState) (raw : Str) : PState :=
  let line := trim raw
  if line = [] then st
  else if endsColon line ∧ (wsWords line).length < 6 then
    let key := trim line.dropLast
    ⟨setEntry st.sections key [], some key⟩
  else
    match st.current with
    | some cur => if cur = [] then st else ⟨appendEntry st.sections cur line, st.current⟩
    | none => st

/-- `parse_sections` of `testapp.py` (lines 23–35). -/
def testapp_parse_sections (content : Str) : Sections :=
  ((splitLines content).foldl testappStep initState).sections

/-- One iteration of `app.py`'s inner `parse_sections` loop (lines 105–113):
same shape heuristic as `testapp.py`, but the key is `line[:-1]` without a
further strip. -/
def appStep (st : PState) (raw : Str) : PState :=
  let line := trim raw
  if line = [] then st
  else if endsColon line ∧ (wsWords line).length < 6 then
    let key := line.dropLast
    ⟨setEntry st.sections key [], some key⟩
  else
    match st.current with
    | some cur => if cur = [] then st else ⟨appendEntry st.sections cur line, st.current⟩
    | none => st

/-- `parse_sections` of `app.py` (lines 102–114). -/
def app_parse_sections (content : Str) : Sections :=
  ((splitLines content).foldl appStep initState).sections

/-- The renderer's scalar field read `secs.get(k, [""])[0]`
(`render_with_docxtpl`, `translationapp.py` lines 219 and 224, and
`testapp.py` line 123): `none` models the Python `IndexError` raised by
`[0]` on an empty list. -/
def scalarRead (secs : Sections) (k : Str) : Option Str :=
  ((alookup secs k).getD [ofString ""]).get? 0

/-- A slide shape as the extraction loop discriminates them: a text frame,
a table of cell texts, or a picture with its image blob (bytes). -/
inductive PShape : Type
  | txt (t : Str)
  | tbl (cells : List Str)
  | pic (blob : List Nat) (ext : Str)
deriving DecidableEq

/-- Loop state of `extract_text_and_images_from_pptx` (`translationapp.py`
lines 23–48): accumulated text, saved images (represented by the blob the
code writes to the file), and the set of digests seen so far. -/
structure ExtractState where
  text : Str
  images : List (List Nat)
  seen : List (List Nat)
deriving DecidableEq

/-- One shape of the extraction loop: text frames and table cells extend
the text with a newline each; a picture is saved unless its content digest
was already seen.  `hash` abstracts `hashlib.sha256(blob).hexdigest()` —
only equality of digests is used, so it is a parameter; file names are
abstracted away, a saved image standing for its blob. -/
def extractStep (hash : List Nat → List Nat) (st : ExtractState) (shp : PShape) : ExtractState :=
  match shp with
  | .txt t => { st with text := st.text ++ t ++ ['\n'] }
  | .tbl cells => { st with text := st.text ++ (cells.map (· ++ ['\n'])).flatten }
  | .pic blob _ =>
    let h := hash blob
    if h ∈ st.seen then st
    else { text := st.text, images := st.images ++ [blob], seen := h :: st.seen }

/-- `extract_text_and_images_from_pptx` of `translationapp.py`, over the
flattened shape stream of the deck. -/
def extract_text_and_images (hash : List Nat → List Nat) (shapes : List PShape) :
    Str × List (List Nat) :=
  let st := shapes.foldl (extractStep hash) ⟨[], [], []⟩
  (st.text, st.images)

/-- An image file as the renderer's ratio filter sees it: its pixel size. -/
structure ImgInfo where
  w : Nat
  h : Nat
deriving DecidableEq

/-- The banner test of `render_with_docxtpl` (`translationapp.py` lines
202–214): skip when `h == 0 or w / h > 3`.  The Python float quotient
exceeds 3 exactly when `3 * h < w` for pixel-sized integers. -/
def isBanner (im : ImgInfo) : Bool := im.h == 0 || decide (3 * im.h < im.w)

/-- The aspect-ratio filtering pass: keep exactly the non-banner images. -/
def filterBanner (imgs : List ImgInfo) : List ImgInfo := imgs.filter (fun im => !isBanner im)

/-- `MAX_IMG = 10` (`translationapp.py` line 232): the configured maximum
number of inserted images. -/
def MAX_IMG : Nat := 10

/-- The image-placeholder fill loop (`translationapp.py` lines 233–243):
placeholder `IMAGE(i+1)` receives image `i` when one exists and stays empty
(`""`, here `none`) otherwise. -/
def imageSlots (imgs : List ImgInfo) : List (Option ImgInfo) :=
  (List.range MAX_IMG).map (fun i => imgs.get? i)

/-- The renderer's image pipeline after PIL verification: ratio filter,
then placeholder fill. -/
def renderImageSlots (imgs : List ImgInfo) : List (Option ImgInfo) :=
  imageSlots (filterBanner imgs)

/-- Invariant of the parsing loop: whenever a section is open, its key is a
nonempty string and has an entry in the mapping — so the single dict access
`sections[current].append(line)` of the code can never raise `KeyError`. -/
def GoodState (st : PState) : Prop :=
  ∀ k, st.current = some k → k ≠ [] ∧ (alookup st.sections k).isSome = true

/-! ## Association-list lemmas -/

theorem alookup_setEntry_self {β : Type} (m : List (Str × β)) (k : Str) (v : β) :
    alookup (setEntry m k v) k = some v := by
  induction m with
  | nil => simp [setEntry, alookup]
  | cons p t ih =>
    obtain ⟨k₁, v₁⟩ := p
    by_cases h : k₁ = k
    · subst h; simp [setEntry, alookup]
    · simp [setEntry, alookup, h, ih]

theorem alookup_setEntry_ne {β : Type} (m : List (Str × β)) {k j : Str} (h : k ≠ j) (v : β) :
    alookup (setEntry m k v) j = alookup m j := by
  induction m with
  | nil => simp [setEntry, alookup, h]
  | cons p t ih =>
    obtain ⟨k₁, v₁⟩ := p
    by_cases h₁ : k₁ = k
    · subst h₁; simp [setEntry, alookup, h]
    · simp [setEntry, alookup, h₁, ih]

theorem alookup_appendEntry_self (m : Sections) (k : Str) (x : Str) :
    alookup (appendEntry m k x) k = (alookup m k).map (fun v => v ++ [x]) := by
  induction m with
  | nil => simp [appendEntry, alookup]
  | cons p t ih =>
    obtain ⟨k₁, v₁⟩ := p
    by_cases h : k₁ = k
    · subst h; simp [appendEntry, alookup]
    · simp [appendEntry, alookup, h, ih]

theorem alookup_appendEntry_ne (m : Sections) {c j : Str} (h : c ≠ j) (x : Str) :
    alookup (appendEntry m c x) j = alookup m j := by
  induction m with
  | nil => simp [appendEntry, alookup]
  | cons p t ih =>
    obtain ⟨k₁, v₁⟩ := p
    by_cases h₁ : k₁ = c
    · subst h₁; simp [appendEntry, alookup, h]
    · simp [appendEntry, alookup, h₁, ih]

theorem isSome_alookup_appendEntry (m : Sections) (c x j : Str) :
    (alookup (appendEntry m c x) j).isSome = (alookup m j).isSome := by
  by_cases h : c = j
  · subst h; rw [alookup_appendEntry_self]; cases alookup m c <;> rfl
  · rw [alookup_appendEntry_ne m h]

theorem alookup_mem_values {β : Type} (m : List (Str × β)) (x : Str) (v : β)
    (h : alookup m x = some v) : v ∈ m.map Prod.snd := by
  induction m with
  | nil => exact absurd h (by simp [alookup])
  | cons p t ih =>
    obtain ⟨k₁, v₁⟩ := p
    rw [List.map_cons]
    by_cases h₁ : k₁ = x
    · subst h₁
      have h₂ : v₁ = v := by simpa [alookup] using h
      exact h₂ ▸ List.mem_cons_self _ _
    · simp only [alookup, if_neg h₁] at h
      exact List.mem_cons_of_mem _ (ih h)

/-! ## Step-function case lemmas and the parser invariant -/

theorem headKey_nil : headKey [] = none := rfl

theorem stepLine_blank (st : PState) (raw : Str) (h : trim raw = []) : stepLine st raw = st := by
  simp [stepLine, h]

theorem stepLine_heading (st : PState) (raw key rest : Str)
    (h : headKey (trim raw) = some (key, rest)) :
    stepLine st raw = ⟨setEntry st.sections key (if rest = [] then [] else [rest]), some key⟩ := by
  have hne : trim raw ≠ [] := by
    intro he; rw [he, headKey_nil] at h; exact Option.noConfusion h
  simp [stepLine, hne, h]

theorem stepLine_absorb (m : Sections) (cur : Str) (raw : Str) (hne : trim raw ≠ [])
    (hh : headKey (trim raw) = none) (hcur : cur ≠ []) :
    stepLine ⟨m, some cur⟩ raw = ⟨appendEntry m cur (trim raw), some cur⟩ := by
  simp [stepLine, hne, hh, hcur]

theorem stepLine_skip_none (m : Sections) (raw : Str) (hh : headKey (trim raw) = none) :
    stepLine ⟨m, none⟩ raw = ⟨m, none⟩ := by
  by_cases hne : trim raw = []
  · exact stepLine_blank _ _ hne
  · simp [stepLine, hne, hh]

theorem stepLine_skip_falsy (m : Sections) (raw : Str) (hh : headKey (trim raw) = none) :
    stepLine ⟨m, some []⟩ raw = ⟨m, some []⟩ := by
  by_cases hne : trim raw = []
  · exact stepLine_blank _ _ hne
  · simp [stepLine, hne, hh]

theorem runLines_nil (st : PState) : runLines st [] = st := rfl

theorem runLines_cons (st : PState) (l : Str) (ls : List Str) :
    runLines st (l :: ls) = runLines (stepLine st l) ls := rfl

theorem runLines_append (st : PState) (a b : List Str) :
    runLines st (a ++ b) = runLines (runLines st a) b := by
  simp [runLines, List.foldl_append]

theorem labelMap_values_ne_nil : ∀ v ∈ labelMap.map Prod.snd, v ≠ [] := by decide

theorem headKey_key_ne_nil {line key rest : Str} (h : headKey line = some (key, rest)) :
    key ≠ [] := by
  cases hp : patMatch line with
  | none => simp [headKey, hp] at h
  | some g =>
    obtain ⟨g₁, g₂⟩ := g
    cases ha : alookup labelMap (trim g₁) with
    | none => simp [headKey, hp, ha] at h
    | some k₁ =>
      simp only [headKey, hp, ha, Option.some_inj, Prod.mk.injEq] at h
      obtain ⟨hk, -⟩ := h
      subst hk
      exact labelMap_values_ne_nil k₁ (alookup_mem_values _ _ _ ha)

theorem goodState_step {st : PState} (hg : GoodState st) (raw : Str) :
    GoodState (stepLine st raw) := by
  by_cases hb : trim raw = []
  · rwa [stepLine_blank st raw hb]
  · cases hh : headKey (trim raw) with
    | some g =>
      obtain ⟨key, rest⟩ := g
      rw [stepLine_heading st raw key rest hh]
      intro k hk
      have : key = k := by simpa using hk
      subst this
      refine ⟨headKey_key_ne_nil hh, ?_⟩
      rw [alookup_setEntry_self]; rfl
    | none =>
      obtain ⟨m, cur⟩ := st
      cases cur with
      | none => rw [stepLine_skip_none m raw hh]; exact hg
      | some cur =>
        by_cases hc : cur = []
        · subst hc; rw [stepLine_skip_falsy m raw hh]; exact hg
        · rw [stepLine_absorb m cur raw hb hh hc]
          intro k hk
          have hkc : cur = k := by simpa using hk
          subst hkc
          refine ⟨hc, ?_⟩
          rw [isSome_alookup_appendEntry]
          exact (hg cur rfl).2

theorem goodState_runLines {st : PState} (hg : GoodState st) (lines : List Str) :
    GoodState (runLines st lines) := by
  induction lines generalizing st with
  | nil => exact hg
  | cons l ls ih => rw [runLines_cons]; exact ih (goodState_step hg l)

theorem goodState_init : GoodState initState := by
  intro k hk
  exact Option.noConfusion hk

/-! ## How one step changes the entry at a fixed key -/

theorem stepLine_absorbs_at (st : PState) (raw k : Str) (hne : trim raw ≠ [])
    (hh : headKey (trim raw) = none) (hcur : st.current = some k) (hk : k ≠ []) :
    stepLine st raw = ⟨appendEntry st.sections k (trim raw), some k⟩ := by
  obtain ⟨m, cur⟩ := st
  have : cur = some k := hcur
  subst this
  exact stepLine_absorb m k raw hne hh hk

theorem stepLine_keeps_at (st : PState) (raw k : Str)
    (hh : headKey (trim raw) = none) (hn : ¬(st.current = some k ∧ k ≠ [])) :
    alookup (stepLine st raw).sections k = alookup st.sections k ∧
      (stepLine st raw).current = st.current := by
  by_cases hb : trim raw = []
  · rw [stepLine_blank st raw hb]; exact ⟨rfl, rfl⟩
  obtain ⟨m, cur⟩ := st
  cases cur with
  | none => rw [stepLine_skip_none m raw hh]; exact ⟨rfl, rfl⟩
  | some cur =>
    by_cases hc : cur = []
    · subst hc; rw [stepLine_skip_falsy m raw hh]; exact ⟨rfl, rfl⟩
    · rw [stepLine_absorb m cur raw hb hh hc]
      have hck : cur ≠ k := by
        intro h; exact hn ⟨by rw [h], h ▸ hc⟩
      exact ⟨alookup_appendEntry_ne m hck (trim raw), rfl⟩

theorem stepLine_congr_at (k : Str) (st st₂ : PState) (raw : Str)
    (he : alookup st.sections k = alookup st₂.sections k)
    (hc : (st.current = some k ∧ k ≠ []) ↔ (st₂.current = some k ∧ k ≠ [])) :
    alookup (stepLine st raw).sections k = alookup (stepLine st₂ raw).sections k ∧
      (((stepLine st raw).current = some k ∧ k ≠ []) ↔
        ((stepLine st₂ raw).current = some k ∧ k ≠ [])) := by
  by_cases hb : trim raw = []
  · rw [stepLine_blank st raw hb, stepLine_blank st₂ raw hb]; exact ⟨he, hc⟩
  cases hh : headKey (trim raw) with
  | some g =>
    obtain ⟨key, rest⟩ := g
    rw [stepLine_heading st raw key rest hh, stepLine_heading st₂ raw key rest hh]
    dsimp only
    refine ⟨?_, Iff.rfl⟩
    by_cases hkk : key = k
    · subst hkk; rw [alookup_setEntry_self, alookup_setEntry_self]
    · rw [alookup_setEntry_ne _ hkk, alookup_setEntry_ne _ hkk]; exact he
  | none =>
    by_cases habs : st.current = some k ∧ k ≠ []
    · have habs₂ := hc.mp habs
      rw [stepLine_absorbs_at st raw k hb hh habs.1 habs.2,
        stepLine_absorbs_at st₂ raw k hb hh habs₂.1 habs₂.2]
      dsimp only
      constructor
      · rw [alookup_appendEntry_self, alookup_appendEntry_self, he]
      · exact Iff.rfl
    · have habs₂ : ¬(st₂.current = some k ∧ k ≠ []) := fun h => habs (hc.mpr h)
      obtain ⟨he₁, hc₁⟩ := stepLine_keeps_at st raw k hh habs
      obtain ⟨he₂, hc₂⟩ := stepLine_keeps_at st₂ raw k hh habs₂
      rw [he₁, he₂, hc₁, hc₂]
      exact ⟨he, hc⟩

theorem alookup_runLines_congr (k : Str) (lines : List Str) :
    ∀ st st₂ : PState, alookup st.sections k = alookup st₂.sections k →
      ((st.current = some k ∧ k ≠ []) ↔ (st₂.current = some k ∧ k ≠ [])) →
      alookup (runLines st lines).sections k = alookup (runLines st₂ lines).sections k := by
  induction lines with
  | nil => intro st st₂ he _; exact he
  | cons l ls ih =>
    intro st st₂ he hc
    rw [runLines_cons, runLines_cons]
    obtain ⟨he₁, hc₁⟩ := stepLine_congr_at k st st₂ l he hc
    exact ih _ _ he₁ hc₁

/-! ## Presence of a key across the run -/

theorem isSome_stepLine (st : PState) (raw k : Str) :
    (alookup (stepLine st raw).sections k).isSome = true ↔
      ((alookup st.sections k).isSome = true ∨
        ∃ rest, headKey (trim raw) = some (k, rest)) := by
  by_cases hb : trim raw = []
  · rw [stepLine_blank st raw hb, hb, headKey_nil]
    simp
  cases hh : headKey (trim raw) with
  | some g =>
    obtain ⟨key, rest⟩ := g
    rw [stepLine_heading st raw key rest hh]
    dsimp only
    by_cases hkk : key = k
    · subst hkk
      rw [alookup_setEntry_self]
      simp
    · rw [alookup_setEntry_ne _ hkk]
      simp [hkk, Prod.ext_iff]
  | none =>
    by_cases habs : st.current = some k ∧ k ≠ []
    · rw [stepLine_absorbs_at st raw k hb hh habs.1 habs.2]
      dsimp only
      rw [isSome_alookup_appendEntry]
      simp
    · obtain ⟨he₁, -⟩ := stepLine_keeps_at st raw k hh habs
      rw [he₁]
      simp

theorem isSome_runLines (lines : List Str) :
    ∀ (st : PState) (k : Str), (alookup (runLines st lines).sections k).isSome = true ↔
      ((alookup st.sections k).isSome = true ∨
        ∃ raw ∈ lines, ∃ rest, headKey (trim raw) = some (k, rest)) := by
  induction lines with
  | nil => intro st k; simp [runLines_nil]
  | cons l ls ih =>
    intro st k
    rw [runLines_cons, ih, isSome_stepLine]
    simp only [List.mem_cons, exists_eq_or_imp]
    tauto

/-! ## Runs over content-only suffixes -/

theorem runLines_no_heading (lines : List Str)
    (h : ∀ raw ∈ lines, headKey (trim raw) = none) :
    runLines initState lines = initState := by
  induction lines with
  | nil => rfl
  | cons l ls ih =>
    rw [runLines_cons, show stepLine initState l = initState from
      stepLine_skip_none [] l (h l (List.mem_cons_self l ls))]
    exact ih fun raw hr => h raw (List.mem_cons_of_mem l hr)

theorem runLines_absorb_all (ys : List Str) :
    ∀ (st : PState) (k : Str) (v : List Str), st.current = some k → k ≠ [] →
      alookup st.sections k = some v →
      (∀ y ∈ ys, trim y ≠ [] ∧ headKey (trim y) = none) →
      (runLines st ys).current = some k ∧
        alookup (runLines st ys).sections k = some (v ++ ys.map trim) ∧
        ∀ j, j ≠ k → alookup (runLines st ys).sections j = alookup st.sections j := by
  induction ys with
  | nil =>
    intro st k v hc hk hv _
    refine ⟨hc, ?_, fun j _ => rfl⟩
    simpa using hv
  | cons y ys ih =>
    intro st k v hc hk hv hys
    obtain ⟨hy₁, hy₂⟩ := hys y (List.mem_cons_self y ys)
    rw [runLines_cons, stepLine_absorbs_at st y k hy₁ hy₂ hc hk]
    have hv₂ : alookup (appendEntry st.sections k (trim y)) k = some (v ++ [trim y]) := by
      rw [alookup_appendEntry_self, hv]; rfl
    obtain ⟨ha, hb, hj⟩ := ih ⟨appendEntry st.sections k (trim y), some k⟩ k (v ++ [trim y])
      rfl hk hv₂ (fun z hz => hys z (List.mem_cons_of_mem y hz))
    refine ⟨ha, ?_, ?_⟩
    · rw [hb]; simp
    · intro j hjk
      rw [hj j hjk]
      exact alookup_appendEntry_ne st.sections (fun h => hjk h.symm) (trim y)

/-! ## Trimming commutes with taking the text before the first colon -/

theorem mem_dropWhile_iff_of_neg {p : Char → Bool} {x : Char} (hx : p x = false) :
    ∀ l : Str, x ∈ l.dropWhile p ↔ x ∈ l := by
  intro l
  induction l with
  | nil => simp
  | cons c t ih =>
    by_cases hc : p c
    · have hxc : x ≠ c := fun h => by rw [h, hc] at hx; exact Bool.noConfusion hx
      rw [List.dropWhile_cons_of_pos hc, ih]
      simp [hxc]
    · rw [List.dropWhile_cons_of_neg hc]

theorem mem_trim_iff {x : Char} (hx : isWs x = false) (l : Str) : x ∈ trim l ↔ x ∈ l := by
  unfold trim trimRight trimLeft
  rw [List.mem_reverse, mem_dropWhile_iff_of_neg hx, List.mem_reverse,
    mem_dropWhile_iff_of_neg hx]

theorem dropWhile_ne_nil_of_mem {p : Char → Bool} {x : Char} {l : Str} (hx : p x = false)
    (hmem : x ∈ l) : l.dropWhile p ≠ [] := by
  intro h
  have := List.dropWhile_eq_nil_iff.mp h x hmem
  rw [hx] at this
  exact Bool.noConfusion this

theorem dropWhile_cons_head {p : Char → Bool} :
    ∀ {l : Str} {c : Char} {t : Str}, l.dropWhile p = c :: t → p c = false ∧ c ∈ l := by
  intro l
  induction l with
  | nil => intro c t h; exact List.noConfusion h
  | cons a l ih =>
    intro c t h
    by_cases ha : p a
    · rw [List.dropWhile_cons_of_pos ha] at h
      obtain ⟨h₁, h₂⟩ := ih h
      exact ⟨h₁, List.mem_cons_of_mem a h₂⟩
    · rw [List.dropWhile_cons_of_neg ha] at h
      obtain ⟨rfl, -⟩ := List.cons.inj h
      exact ⟨Bool.eq_false_iff.mpr ha, List.mem_cons_self a l⟩

theorem takeWhile_dropWhile_comm {p q : Char → Bool} (hpq : ∀ c, q c = true → p c = true) :
    ∀ l : Str, (l.dropWhile q).takeWhile p = (l.takeWhile p).dropWhile q := by
  intro l
  induction l with
  | nil => rfl
  | cons c t ih =>
    by_cases hq : q c
    · rw [List.dropWhile_cons_of_pos hq, List.takeWhile_cons_of_pos (hpq c hq),
        List.dropWhile_cons_of_pos hq, ih]
    · rw [List.dropWhile_cons_of_neg hq]
      by_cases hp : p c
      · rw [List.takeWhile_cons_of_pos hp, List.dropWhile_cons_of_neg hq]
      · rw [List.takeWhile_cons_of_neg hp, List.dropWhile_nil]

theorem takeWhile_append_left {p : Char → Bool} {x : Char} (hx : p x = false) :
    ∀ {l : Str}, x ∈ l → ∀ l₂ : Str, (l ++ l₂).takeWhile p = l.takeWhile p := by
  intro l
  induction l with
  | nil => intro h; exact absurd h (List.not_mem_nil x)
  | cons c t ih =>
    intro hmem l₂
    by_cases hc : p c
    · have hxc : x ≠ c := fun h => by rw [h, hc] at hx; exact Bool.noConfusion hx
      have hxt : x ∈ t := by
        rcases List.mem_cons.mp hmem with h | h
        · exact absurd h hxc
        · exact h
      rw [List.cons_append, List.takeWhile_cons_of_pos hc, List.takeWhile_cons_of_pos hc,
        ih hxt l₂]
    · rw [List.cons_append, List.takeWhile_cons_of_neg hc, List.takeWhile_cons_of_neg hc]

theorem trimRight_decomp (l : Str) :
    l = trimRight l ++ (l.reverse.takeWhile isWs).reverse := by
  unfold trimRight
  rw [← List.reverse_append, List.takeWhile_append_dropWhile, List.reverse_reverse]

theorem beforeColon_trimRight {l : Str} (h : ':' ∈ l) :
    beforeColon (trimRight l) = beforeColon l := by
  have hsfx : ∀ x ∈ (l.reverse.takeWhile isWs).reverse, isWs x = true := by
    intro x hxm
    exact List.mem_takeWhile_imp (List.mem_reverse.mp hxm)
  have hcolon : ':' ∈ trimRight l := by
    have h₂ : ':' ∈ trimRight l ++ (l.reverse.takeWhile isWs).reverse := by
      rw [← trimRight_decomp l]; exact h
    rcases List.mem_append.mp h₂ with h₁ | h₁
    · exact h₁
    · exact absurd (hsfx ':' h₁) (by decide)
  unfold beforeColon
  conv_rhs => rw [trimRight_decomp l]
  exact (takeWhile_append_left (p := fun c => c != ':') (x := ':') (by decide) hcolon _).symm

theorem dropWhile_self_idem (p : Char → Bool) (l : Str) :
    (l.dropWhile p).dropWhile p = l.dropWhile p := by
  induction l with
  | nil => rfl
  | cons c t ih =>
    by_cases hc : p c
    · rw [List.dropWhile_cons_of_pos hc, ih]
    · rw [List.dropWhile_cons_of_neg hc, List.dropWhile_cons_of_neg hc]

theorem trim_trimLeft (l : Str) : trim (trimLeft l) = trim l := by
  unfold trim trimLeft
  rw [dropWhile_self_idem]

theorem trim_beforeColon_trim {l : Str} (h : ':' ∈ l) :
    trim (beforeColon (trim l)) = trim (beforeColon l) := by
  have hws : ∀ c : Char, isWs c = true → (c != ':') = true := by
    intro c hc
    by_contra hne
    have hcc : c = ':' := by simpa using hne
    rw [hcc] at hc
    exact absurd hc (by decide)
  have h₁ : ':' ∈ trimLeft l := (mem_dropWhile_iff_of_neg (by decide) l).mpr h
  have h₂ : beforeColon (trim l) = trimLeft (beforeColon l) := by
    unfold trim
    rw [beforeColon_trimRight h₁]
    exact takeWhile_dropWhile_comm hws l
  rw [h₂, trim_trimLeft]

theorem alookup_labelMap_nil : alookup labelMap [] = none := by decide

/-! ## Characterizations of the heading match -/

theorem patMatch_some_elim {l g₁ g₂ : Str} (h : patMatch l = some (g₁, g₂)) :
    g₁ = beforeColon l ∧ ':' ∈ l ∧ beforeColon l ≠ [] := by
  cases hd : l.dropWhile (fun c => c != ':') with
  | nil => simp [patMatch, hd] at h
  | cons c rest =>
    by_cases hbc : beforeColon l = []
    · simp [patMatch, hd, hbc] at h
    · simp only [patMatch, hd, if_neg hbc, Option.some_inj, Prod.mk.injEq] at h
      obtain ⟨hc, hmem⟩ := dropWhile_cons_head hd
      have : c = ':' := by simpa using hc
      exact ⟨h.1.symm, this ▸ hmem, hbc⟩

theorem patMatch_some_intro {l : Str} (hc : ':' ∈ l) (hb : beforeColon l ≠ []) :
    ∃ g₂, patMatch l = some (beforeColon l, g₂) := by
  cases hd : l.dropWhile (fun c => c != ':') with
  | nil => exact absurd hd (dropWhile_ne_nil_of_mem (by decide) hc)
  | cons c rest =>
    exact ⟨trimLeft rest, by simp [patMatch, hd, hb]⟩

theorem headKey_some_elim {line key rest : Str} (h : headKey line = some (key, rest)) :
    ∃ g₁ g₂, patMatch line = some (g₁, g₂) ∧ alookup labelMap (trim g₁) = some key ∧
      rest = trim g₂ := by
  cases hp : patMatch line with
  | none => simp [headKey, hp] at h
  | some g =>
    obtain ⟨g₁, g₂⟩ := g
    cases ha : alookup labelMap (trim g₁) with
    | none => simp [headKey, hp, ha] at h
    | some k₁ =>
      simp only [headKey, hp, ha, Option.some_inj, Prod.mk.injEq] at h
      exact ⟨g₁, g₂, rfl, h.1 ▸ ha, h.2.symm⟩

/-! ## Claim theorems -/

/-- C1 (amended): in `translationapp.py`'s `parse_sections`, a line is
classified as a section heading exactly when it contains a colon and the
text before its first colon, trimmed, is a key of the alias table — and the
canonical key opened is that alias entry's value; line shape plays no role
there.  (As originally stated over all three cited `parse_sections`
variants the claim fails: `app.py`/`testapp.py` use the
ends-with-colon-and-short shape test with no alias table, see the
counterexample.) -/
theorem claim1_alias_membership_iff (raw k : Str) :
    (∃ rest, headKey (trim raw) = some (k, rest)) ↔
      (':' ∈ raw ∧ alookup labelMap (trim (beforeColon raw)) = some k) := by
  constructor
  · rintro ⟨rest, h⟩
    obtain ⟨g₁, g₂, hp, ha, -⟩ := headKey_some_elim h
    obtain ⟨hg₁, hcl, -⟩ := patMatch_some_elim hp
    subst hg₁
    have hcr : ':' ∈ raw := (mem_trim_iff (by decide) raw).mp hcl
    refine ⟨hcr, ?_⟩
    rw [← trim_beforeColon_trim hcr]
    exact ha
  · rintro ⟨hcr, ha⟩
    have hct : ':' ∈ trim raw := (mem_trim_iff (by decide) raw).mpr hcr
    have hb : beforeColon (trim raw) ≠ [] := by
      intro hb
      have h₀ : trim (beforeColon raw) = [] := by
        rw [← trim_beforeColon_trim hcr, hb]; rfl
      rw [h₀, alookup_labelMap_nil] at ha
      exact Option.noConfusion ha
    obtain ⟨g₂, hp⟩ := patMatch_some_intro hct hb
    refine ⟨trim g₂, ?_⟩
    have ha₂ : alookup labelMap (trim (beforeColon (trim raw))) = some k := by
      rw [trim_beforeColon_trim hcr]; exact ha
    simp [headKey, hp, ha₂]

/-- C1 counterexample: `testapp.py`'s `parse_sections` (cited by the claim)
treats the short colon-terminated line "Note to reader:" as a section
heading — it becomes a key of the output mapping with the following line as
its content — although its label is not a key of the alias table, refuting
"never treated as a heading". -/
theorem claim1_counterexample :
    testapp_parse_sections (ofString "Note to reader:\nhello") =
      [(ofString "Note to reader", [ofString "hello"])] ∧
    alookup labelMap (ofString "Note to reader") = none := by decide

/-- C1 witness: a recognized French label is a heading; an unrecognized
label with a colon is not. -/
theorem claim1_witness :
    (∃ rest, headKey (trim (ofString "Titre: Incident de grue")) =
      some (ofString "Title", rest)) ∧
    ¬(∃ rest, headKey (trim (ofString "Note to reader: hello")) =
      some (ofString "Note to reader", rest)) := by
  constructor
  · exact (claim1_alias_membership_iff _ _).mpr ⟨by decide, by decide⟩
  · intro hex
    have h := (claim1_alias_membership_iff (ofString "Note to reader: hello")
      (ofString "Note to reader")).mp hex
    exact absurd h.2 (by decide)

/-- C2 (amended): in `translationapp.py`'s `parse_sections`, when a line
matches a recognized heading and has nonempty content after the colon, that
trimmed content becomes the single initial content item of the freshly
opened section, and the spec's example input parses to exactly the stated
mapping.  (For `app.py`'s `parse_sections`, also cited, the example fails:
a heading there must end with the colon, so "Title: Crane Incident" is
discarded — see the counterexample.) -/
theorem claim2_inline_content (st : PState) (raw key rest : Str)
    (h : headKey (trim raw) = some (key, rest)) (hr : rest ≠ []) :
    stepLine st raw = ⟨setEntry st.sections key [rest], some key⟩ ∧
    alookup (stepLine st raw).sections key = some [rest] ∧
    parse_sections (ofString "Title: Crane Incident\nAecon Business Sector:\nInfrastructure\n") =
      [(ofString "Title", [ofString "Crane Incident"]),
       (ofString "Aecon Business Sector", [ofString "Infrastructure"])] := by
  have h₁ := stepLine_heading st raw key rest h
  rw [if_neg hr] at h₁
  refine ⟨h₁, ?_, by decide⟩
  rw [h₁]
  dsimp only
  rw [alookup_setEntry_self]

/-- C2 counterexample: on the claim's example input, `app.py`'s
`parse_sections` (cited by the claim) yields no `Title` key at all, and the
whole mapping is just the `Aecon Business Sector` section. -/
theorem claim2_counterexample :
    alookup (app_parse_sections
        (ofString "Title: Crane Incident\nAecon Business Sector:\nInfrastructure\n"))
      (ofString "Title") = none ∧
    app_parse_sections (ofString "Title: Crane Incident\nAecon Business Sector:\nInfrastructure\n")
      = [(ofString "Aecon Business Sector", [ofString "Infrastructure"])] := by decide

/-- C2 witness: the inline-content step at a concrete heading line, with
the parse of the spec's sample input. -/
theorem claim2_witness :
    stepLine initState (ofString "Title: Crane Incident") =
      ⟨[(ofString "Title", [ofString "Crane Incident"])], some (ofString "Title")⟩ ∧
    parse_sections (ofString "Title: Crane Incident\nAecon Business Sector:\nInfrastructure\n") =
      [(ofString "Title", [ofString "Crane Incident"]),
       (ofString "Aecon Business Sector", [ofString "Infrastructure"])] := by
  obtain ⟨h₁, -, h₃⟩ := claim2_inline_content initState (ofString "Title: Crane Incident")
    (ofString "Title") (ofString "Crane Incident") (by decide) (by decide)
  exact ⟨h₁, h₃⟩

/-- C3: last-write-wins — when a line is a recognized heading for canonical
key `k` (by any alias surface form), the final entry at `k` is independent
of the whole input prefix before that line, so a later heading occurrence
replaces (never appends to) the content of any earlier occurrence of the
same canonical key, including across an English/French alias collision. -/
theorem claim3_last_write_wins (pre post : List Str) (line k rest : Str)
    (h : headKey (trim line) = some (k, rest)) :
    alookup (parseLines (pre ++ line :: post)) k =
      alookup (parseLines (line :: post)) k := by
  unfold parseLines
  rw [runLines_append, runLines_cons, runLines_cons]
  refine alookup_runLines_congr k post _ _ ?_ ?_
  · rw [stepLine_heading _ line k rest h, stepLine_heading initState line k rest h]
    dsimp only
    rw [alookup_setEntry_self, alookup_setEntry_self]
  · rw [stepLine_heading _ line k rest h, stepLine_heading initState line k rest h]

/-- C3 witness: an English then a French alias of the same canonical key —
the final mapping holds only the later occurrence's content. -/
theorem claim3_witness :
    alookup (parseLines [ofString "Lessons Learned: old point",
        ofString "Leçons apprises: new point"]) (ofString "Lessons Learned") =
      alookup (parseLines [ofString "Leçons apprises: new point"])
        (ofString "Lessons Learned") ∧
    alookup (parseLines [ofString "Leçons apprises: new point"])
        (ofString "Lessons Learned") = some [ofString "new point"] := by
  refine ⟨?_, by decide⟩
  exact claim3_last_write_wins [ofString "Lessons Learned: old point"] []
    (ofString "Leçons apprises: new point") (ofString "Lessons Learned")
    (ofString "new point") (by decide)

/-- C4: the output mapping contains exactly the canonical keys whose
heading matched at least once — present (even with an empty content list)
when matched, absent when never matched. -/
theorem claim4_presence_iff (out : Str) (k : Str) :
    (alookup (parse_sections out) k).isSome = true ↔
      ∃ raw ∈ splitLines out, ∃ rest, headKey (trim raw) = some (k, rest) := by
  unfold parse_sections parseLines
  rw [isSome_runLines]
  simp [initState, alookup]

/-- C4 witness: a matched heading with no content is present (with the
empty list), and a never-matched key is absent. -/
theorem claim4_witness :
    (alookup (parse_sections (ofString "Event Type:")) (ofString "Event Type")).isSome = true ∧
    alookup (parse_sections (ofString "Event Type:")) (ofString "Event Type") = some [] ∧
    (alookup (parse_sections (ofString "hello world")) (ofString "Title")).isSome = false := by
  refine ⟨?_, by decide, by decide⟩
  exact (claim4_presence_iff _ _).mpr ⟨ofString "Event Type:", by decide, [], by decide⟩

/-- C5: the parser cannot fail — every operation of the model is total, the
one dict subscript `sections[current].append(line)` is protected by the
invariant that an open section's key is a present key of the mapping (so no
`KeyError`), and an input with no recognized heading parses to the empty
mapping. -/
theorem claim5_no_failure (out : Str) :
    (∀ k, (runLines initState (splitLines out)).current = some k →
      k ≠ [] ∧ (alookup (parse_sections out) k).isSome = true) ∧
    ((∀ raw ∈ splitLines out, headKey (trim raw) = none) → parse_sections out = []) := by
  constructor
  · intro k hk
    exact goodState_runLines goodState_init (splitLines out) k hk
  · intro h
    unfold parse_sections parseLines
    rw [runLines_no_heading (splitLines out) h]
    rfl

/-- C5 witness: headed input keeps the open key present; heading-free input
parses to the empty mapping. -/
theorem claim5_witness :
    parse_sections (ofString "no recognized heading here\njust prose, no labels") = [] ∧
    (alookup (parse_sections (ofString "Title: set")) (ofString "Title")).isSome = true := by
  obtain ⟨-, h₂⟩ := (claim5_no_failure (ofString "Title: set")).1 (ofString "Title") (by decide)
  exact ⟨(claim5_no_failure (ofString "no recognized heading here\njust prose, no labels")).2
    (by decide), h₂⟩

/-- C6: the code at the claim's failing input — the alias table maps the
ASCII-apostrophe "Date de l'événement" to `Date of Event` but has no entry
for the same label with the typographic apostrophe U+2019, so the heading
line "Date de l’événement: 2024-05-01" is not recognized at all; the claim
("both variants resolve to the same canonical key for every recognized
French label") holds only for "Secteur d'activité d'Aecon" — the spec's
tolerance requirement is the evident intent (the table already doubles that
one label) and the missing entries are the slip. -/
theorem claim6_apostrophe_gap :
    alookup labelMap (ofString "Date de l" ++ [apos] ++ ofString "événement") =
      some (ofString "Date of Event") ∧
    alookup labelMap (ofString "Date de l" ++ [rapos] ++ ofString "événement") = none ∧
    (∃ rest, headKey (trim (ofString "Date de l" ++ [apos] ++ ofString "événement: 2024-05-01"))
      = some (ofString "Date of Event", rest)) ∧
    headKey (trim (ofString "Date de l" ++ [rapos] ++ ofString "événement: 2024-05-01")) = none ∧
    alookup labelMap
        (ofString "Secteur d" ++ [apos] ++ ofString "activité d" ++ [apos] ++ ofString "Aecon") =
      alookup labelMap
        (ofString "Secteur d" ++ [rapos] ++ ofString "activité d" ++ [rapos] ++ ofString "Aecon") := by
  exact ⟨by decide, by decide, ⟨ofString "2024-05-01", by decide⟩, by decide, by decide⟩

/-- C7: monotonicity in trailing content — when the input ends inside an
open section `k`, extending the input by further non-blank non-heading
lines extends exactly the entry at `k` by those trimmed lines in order and
leaves every other key's entry unchanged. -/
theorem claim7_monotone (out out₂ : Str) (ys : List Str) (k : Str)
    (hsplit : splitLines out₂ = splitLines out ++ ys)
    (hcur : (runLines initState (splitLines out)).current = some k)
    (hys : ∀ y ∈ ys, trim y ≠ [] ∧ headKey (trim y) = none) :
    alookup (parse_sections out₂) k
        = (alookup (parse_sections out) k).map (fun v => v ++ ys.map trim) ∧
      ∀ j, j ≠ k → alookup (parse_sections out₂) j = alookup (parse_sections out) j := by
  obtain ⟨hk, hsome⟩ := goodState_runLines goodState_init (splitLines out) k hcur
  obtain ⟨v, hv⟩ := Option.isSome_iff_exists.mp hsome
  have hrw : parse_sections out₂ =
      (runLines (runLines initState (splitLines out)) ys).sections := by
    unfold parse_sections parseLines
    rw [hsplit, runLines_append]
  obtain ⟨-, h₂, h₃⟩ :=
    runLines_absorb_all ys (runLines initState (splitLines out)) k v hcur hk hv hys
  constructor
  · rw [hrw, h₂, show alookup (parse_sections out) k = some v from hv]
    rfl
  · intro j hj
    rw [hrw]
    exact h₃ j hj

/-- C7 witness: appending two content lines to an input that ends in the
`Lessons Learned` section extends exactly that entry, leaving `Title`
untouched. -/
theorem claim7_witness :
    alookup (parse_sections (ofString "Lessons Learned: a\nb\nc")) (ofString "Lessons Learned")
      = some [ofString "a", ofString "b", ofString "c"] ∧
    alookup (parse_sections (ofString "Lessons Learned: a\nb\nc")) (ofString "Title")
      = alookup (parse_sections (ofString "Lessons Learned: a")) (ofString "Title") := by
  obtain ⟨h₁, h₂⟩ := claim7_monotone (ofString "Lessons Learned: a")
    (ofString "Lessons Learned: a\nb\nc") [ofString "b", ofString "c"]
    (ofString "Lessons Learned") (by decide) (by decide) (by decide)
  constructor
  · rw [h₁]; decide
  · exact h₂ (ofString "Title") (by decide)

/-- C9: the renderer's scalar read `secs.get(k, [""])[0]` fails (Python
`IndexError`, modelled as `none`) whenever the key is present with an empty
content list — the default protects only against an absent key — and the
parser produces exactly such a mapping for a heading with no inline and no
following content, so rendering is not total over parser outputs. -/
theorem claim9_scalar_read_partial :
    (∀ (secs : Sections) (k : Str), alookup secs k = some [] → scalarRead secs k = none) ∧
    parse_sections (ofString "Title:\nEvent Summary Header:") =
      [(ofString "Title", []), (ofString "Event Summary Header", [])] ∧
    scalarRead (parse_sections (ofString "Title:\nEvent Summary Header:")) (ofString "Title")
      = none := by
  refine ⟨?_, by decide, by decide⟩
  intro secs k h
  unfold scalarRead
  rw [h]
  rfl

/-- C9 witness: the failing read at a concrete present-but-empty mapping. -/
theorem claim9_witness :
    scalarRead [(ofString "Title", [])] (ofString "Title") = none :=
  claim9_scalar_read_partial.1 _ _ (by decide)

/-- C10: a heading-shaped line (colon line with a nonempty label) whose
label is not in the alias table is, when a section is open, appended whole
(trimmed, label and colon included) to the open section's content list —
silently absorbed, not discarded and not opened as a section. -/
theorem claim10_unrecognized_absorbed (m : Sections) (cur : Str) (v : List Str)
    (raw g₁ g₂ : Str) (hcur : cur ≠ []) (hv : alookup m cur = some v)
    (hp : patMatch (trim raw) = some (g₁, g₂))
    (ha : alookup labelMap (trim g₁) = none) :
    stepLine ⟨m, some cur⟩ raw = ⟨appendEntry m cur (trim raw), some cur⟩ ∧
    alookup (stepLine ⟨m, some cur⟩ raw).sections cur = some (v ++ [trim raw]) := by
  have hne : trim raw ≠ [] := by
    intro h
    rw [h, show patMatch ([] : Str) = none from rfl] at hp
    exact Option.noConfusion hp
  have hh : headKey (trim raw) = none := by simp [headKey, hp, ha]
  have h₁ := stepLine_absorb m cur raw hne hh hcur
  refine ⟨h₁, ?_⟩
  rw [h₁]
  dsimp only
  rw [alookup_appendEntry_self, hv]
  rfl

/-- C10 witness: the unrecognized heading-shaped line "Severity: High" is
absorbed verbatim into the open `Event Summary` section. -/
theorem claim10_witness :
    stepLine ⟨[(ofString "Event Summary", [ofString "The crane tipped."])],
        some (ofString "Event Summary")⟩ (ofString "Severity: High") =
      ⟨[(ofString "Event Summary",
          [ofString "The crane tipped.", ofString "Severity: High"])],
        some (ofString "Event Summary")⟩ := by
  obtain ⟨h₁, -⟩ := claim10_unrecognized_absorbed
    [(ofString "Event Summary", [ofString "The crane tipped."])] (ofString "Event Summary")
    [ofString "The crane tipped."] (ofString "Severity: High") (ofString "Severity")
    (ofString "High") (by decide) (by decide) (by decide) (by decide)
  rw [h₁]
  decide

/-! ## Image-pipeline lemmas -/

theorem extract_inv (hash : List Nat → List Nat) (shapes : List PShape) :
    ∀ st : ExtractState, (∀ x, x ∈ st.seen ↔ x ∈ st.images.map hash) →
      (st.images.map hash).Nodup →
      (∀ x, x ∈ (shapes.foldl (extractStep hash) st).seen ↔
          x ∈ (shapes.foldl (extractStep hash) st).images.map hash) ∧
        ((shapes.foldl (extractStep hash) st).images.map hash).Nodup ∧
        (∀ x ∈ st.seen, x ∈ (shapes.foldl (extractStep hash) st).seen) ∧
        (∀ blob ext, PShape.pic blob ext ∈ shapes →
          hash blob ∈ (shapes.foldl (extractStep hash) st).seen) := by
  induction shapes with
  | nil =>
    intro st h₁ h₂
    exact ⟨h₁, h₂, fun x hx => hx, fun blob ext h => absurd h (List.not_mem_nil _)⟩
  | cons shp shapes ih =>
    intro st h₁ h₂
    rw [List.foldl_cons]
    cases shp with
    | txt t =>
      obtain ⟨g₁, g₂, g₃, g₄⟩ := ih (extractStep hash st (.txt t)) h₁ h₂
      refine ⟨g₁, g₂, g₃, ?_⟩
      intro blob ext hmem
      rcases List.mem_cons.mp hmem with h | h
      · exact absurd h (by simp)
      · exact g₄ blob ext h
    | tbl cells =>
      obtain ⟨g₁, g₂, g₃, g₄⟩ := ih (extractStep hash st (.tbl cells)) h₁ h₂
      refine ⟨g₁, g₂, g₃, ?_⟩
      intro blob ext hmem
      rcases List.mem_cons.mp hmem with h | h
      · exact absurd h (by simp)
      · exact g₄ blob ext h
    | pic blob ext =>
      by_cases hseen : hash blob ∈ st.seen
      · have hstep : extractStep hash st (.pic blob ext) = st := by
          simp [extractStep, hseen]
        rw [hstep]
        obtain ⟨g₁, g₂, g₃, g₄⟩ := ih st h₁ h₂
        refine ⟨g₁, g₂, g₃, ?_⟩
        intro b e hmem
        rcases List.mem_cons.mp hmem with h | h
        · obtain ⟨rfl, rfl⟩ : b = blob ∧ e = ext := by
            simpa using h
          exact g₃ _ hseen
        · exact g₄ b e h
      · have hstep : extractStep hash st (.pic blob ext) =
            ⟨st.text, st.images ++ [blob], hash blob :: st.seen⟩ := by
          simp [extractStep, hseen]
        rw [hstep]
        have h₁n : ∀ x, x ∈ hash blob :: st.seen ↔
            x ∈ (st.images ++ [blob]).map hash := by
          intro x
          rw [List.map_append, List.mem_append, List.mem_cons, h₁ x]
          simp [or_comm]
        have h₂n : ((st.images ++ [blob]).map hash).Nodup := by
          rw [List.map_append]
          refine List.Nodup.append h₂ (by simp) ?_
          intro x hx₁ hx₂
          have : x = hash blob := by simpa using hx₂
          subst this
          exact hseen ((h₁ (hash blob)).mpr hx₁)
        obtain ⟨g₁, g₂, g₃, g₄⟩ := ih ⟨st.text, st.images ++ [blob], hash blob :: st.seen⟩ h₁n h₂n
        refine ⟨g₁, g₂, fun x hx => g₃ x (List.mem_cons_of_mem _ hx), ?_⟩
        intro b e hmem
        rcases List.mem_cons.mp hmem with h | h
        · obtain ⟨rfl, rfl⟩ : b = blob ∧ e = ext := by
            simpa using h
          exact g₃ _ (List.mem_cons_self _ _)
        · exact g₄ b e h

theorem countP_slots (l : List ImgInfo) (n : Nat) :
    ((List.range n).map (fun i => l.get? i)).countP (fun o => o.isSome) = min n l.length := by
  induction n with
  | zero => simp
  | succ n ih =>
    rw [List.range_succ, List.map_append, List.countP_append, ih]
    by_cases h : n < l.length
    · obtain ⟨a, ha⟩ : ∃ a, l.get? n = some a := by
        rw [List.get?_eq_get h]
        exact ⟨_, rfl⟩
      rw [List.map_cons, List.map_nil, ha,
        Nat.min_eq_left (Nat.le_of_lt h), Nat.min_eq_left h]
      simp
    · rw [List.map_cons, List.map_nil, List.get?_eq_none.mpr (Nat.le_of_not_lt h),
        Nat.min_eq_right (Nat.le_of_not_lt h),
        Nat.min_eq_right (Nat.le_succ_of_le (Nat.le_of_not_lt h))]
      simp

/-- C8: the image pipeline — (1) deck extraction saves at most one image
per content digest (so two picture shapes with byte-identical blobs, which
share a digest under any digest function, produce one saved image) while
every picture's digest is represented by a saved image; (2) an image wider
than three times its height is never inserted, the ratio filter dropping it
before the placeholder fill; (3) the fill produces exactly the `MAX_IMG`
placeholders, of which exactly `min MAX_IMG (filtered count)` hold an image
and the rest stay empty. -/
theorem claim8_image_pipeline :
    (∀ (hash : List Nat → List Nat) (shapes : List PShape),
      ((extract_text_and_images hash shapes).2.map hash).Nodup ∧
      ∀ blob ext, PShape.pic blob ext ∈ shapes →
        hash blob ∈ (extract_text_and_images hash shapes).2.map hash) ∧
    (∀ (imgs : List ImgInfo) (im : ImgInfo), 3 * im.h < im.w →
      some im ∉ renderImageSlots imgs) ∧
    (∀ imgs : List ImgInfo,
      (renderImageSlots imgs).length = MAX_IMG ∧
      (renderImageSlots imgs).countP (fun o => o.isSome)
        = min MAX_IMG (filterBanner imgs).length) := by
  refine ⟨?_, ?_, ?_⟩
  · intro hash shapes
    obtain ⟨g₁, g₂, -, g₄⟩ := extract_inv hash shapes ⟨[], [], []⟩ (by simp) (by simp)
    exact ⟨g₂, fun blob ext hmem => (g₁ (hash blob)).mp (g₄ blob ext hmem)⟩
  · intro imgs im h₃ hmem
    unfold renderImageSlots imageSlots at hmem
    obtain ⟨i, -, hi⟩ := List.mem_map.mp hmem
    have him : im ∈ filterBanner imgs := List.get?_mem hi
    have hb := (List.mem_filter.mp him).2
    simp [isBanner] at hb
    exact absurd h₃ (Nat.not_lt.mpr hb.2)
  · intro imgs
    constructor
    · unfold renderImageSlots imageSlots
      rw [List.length_map, List.length_range]
    · exact countP_slots (filterBanner imgs) MAX_IMG

/-- C8 witness: a duplicated blob yields one saved image with nodup
digests; a 10×2 banner is never inserted; of ten placeholders exactly one
is filled after filtering. -/
theorem claim8_witness :
    ((extract_text_and_images id
        [PShape.pic [1, 2] (ofString "png"), PShape.pic [1, 2] (ofString "png")]).2.map id).Nodup ∧
    [1, 2] ∈ (extract_text_and_images id
        [PShape.pic [1, 2] (ofString "png"), PShape.pic [1, 2] (ofString "png")]).2.map id ∧
    some (⟨10, 2⟩ : ImgInfo) ∉ renderImageSlots [⟨10, 2⟩, ⟨4, 4⟩] ∧
    (renderImageSlots [⟨10, 2⟩, ⟨4, 4⟩]).countP (fun o => o.isSome) = 1 := by
  obtain ⟨h₁, h₂⟩ := claim8_image_pipeline.1 id
    [PShape.pic [1, 2] (ofString "png"), PShape.pic [1, 2] (ofString "png")]
  refine ⟨h₁, h₂ [1, 2] (ofString "png") (by decide), ?_, ?_⟩
  · exact claim8_image_pipeline.2.1 [⟨10, 2⟩, ⟨4, 4⟩] ⟨10, 2⟩ (by decide)
  · rw [(claim8_image_pipeline.2.2 [⟨10, 2⟩, ⟨4, 4⟩]).2]
    decide

end LessonsApp
